import Mathlib

/-!
Verification development for the map application's response-orchestration and
parsing pipeline.  The definitions below are shallow embeddings of the
TypeScript sources:

- `src/PPX.ts`          : `takeFirstJsonArray`, `normalizeDateLike`,
                          `coerceLifeHops`, `fetchPersonLifePath`
- `src/Map.tsx`         : `tryParseEvents` (with its `toIso`/`coerce` helpers)
                          and the timeline-orchestration effect
- `src/Timeline.tsx`    : the imperative timeline store (`addEvent`)
- `src/Wordcloud.tsx`   : `extractJsonArray`, `normalizeKeywords`,
                          `addKeyword`, `addKeywords`
- `src/Desc.tsx`        : the description fetch lifecycle (abort handling)
- `src/DataVizMap.tsx`  : the insight-query catch/finally handling

JavaScript `JSON.parse` is embedded as a total, fuel-bounded recursive-descent
function over character lists; JS numbers appearing in parsed JSON are modelled
as rationals (the operations performed on them here are only comparisons and
clamping, which are exact).  Date parsing by `new Date(...)` is modelled by an
explicit oracle argument, since ECMA-262 date recognition is host-dependent
beyond the ISO format; the one fixed point used by the code,
`new Date('1900-01-01').toISOString()`, is the constant
`1900-01-01T00:00:00.000Z` mandated by the standard.
-/

/-- JSON values produced by `JSON.parse`.  Object fields keep their textual
order; duplicate keys are resolved at lookup time (last occurrence wins, as in
JavaScript). -/
inductive Json where
  | null : Json
  | bool : Bool → Json
  | num : Rat → Json
  | str : String → Json
  | arr : List Json → Json
  | obj : List (String × Json) → Json
deriving Repr

/-- The character `{`, written via its code point to keep it out of source text. -/
def braceOpen : Char := Char.ofNat 123

/-- The character `}`, written via its code point. -/
def braceClose : Char := Char.ofNat 125

/-- JSON insignificant whitespace: space, tab, line feed, carriage return. -/
def isJsonWs (c : Char) : Bool :=
  c = ' ' || c = '\t' || c = '\n' || c = '\r'

/-- Drop leading JSON whitespace. -/
def skipWs (cs : List Char) : List Char := cs.dropWhile isJsonWs

/-- Numeric value of a decimal digit character. -/
def digitVal (c : Char) : Nat := c.toNat - 48

/-- Natural number denoted by a list of decimal digits. -/
def natOfDigits (ds : List Char) : Nat :=
  ds.foldl (fun a c => a * 10 + digitVal c) 0

/-- Value of a hexadecimal digit character, if it is one. -/
def hexVal (c : Char) : Option Nat :=
  if '0' ≤ c ∧ c ≤ '9' then some (c.toNat - 48)
  else if 'a' ≤ c ∧ c ≤ 'f' then some (c.toNat - 87)
  else if 'A' ≤ c ∧ c ≤ 'F' then some (c.toNat - 55)
  else none

/-- A decimal literal `mant * 10 ^ e10` as an exact rational.  The
nonnegative-exponent path avoids `Rat` normalization so that parses of
integer-valued literals reduce inside the kernel. -/
def decToRat (mant : Int) (e10 : Int) : Rat :=
  if 0 ≤ e10 then Rat.ofInt (mant * (10 : Int) ^ e10.toNat)
  else mkRat mant ((10 : Nat) ^ (-e10).toNat)

/-- Parse the fractional part of a JSON number: either nothing, or a dot
followed by at least one digit.  Returns the fraction digits and the rest. -/
def pfrac : List Char → Option (List Char × List Char)
  | '.' :: r =>
    let fd := r.takeWhile Char.isDigit
    if fd.isEmpty then none else some (fd, r.dropWhile Char.isDigit)
  | cs => some ([], cs)

/-- Parse the exponent part of a JSON number, returning the signed exponent
and the rest of the input. -/
def pexp : List Char → Option (Int × List Char)
  | [] => some (0, [])
  | c :: r =>
    if c = 'e' ∨ c = 'E' then
      let sgn : Int × List Char :=
        match r with
        | '+' :: r2 => (1, r2)
        | '-' :: r2 => (-1, r2)
        | _ => (1, r)
      let ed := sgn.2.takeWhile Char.isDigit
      if ed.isEmpty then none
      else some (sgn.1 * (natOfDigits ed : Int), sgn.2.dropWhile Char.isDigit)
    else some (0, c :: r)

/-- Parse a JSON number (sign, integer part without leading zeros, optional
fraction, optional exponent) into a rational. -/
def pnumber (cs : List Char) : Option (Rat × List Char) :=
  let sgncs : Bool × List Char :=
    match cs with
    | '-' :: r => (true, r)
    | _ => (false, cs)
  let body := sgncs.2
  let intDigits := body.takeWhile Char.isDigit
  let rest0 := body.dropWhile Char.isDigit
  if intDigits.isEmpty then none
  else if 1 < intDigits.length ∧ intDigits.head? = some '0' then none
  else
    match pfrac rest0 with
    | none => none
    | some (fracDigits, rest1) =>
      match pexp rest1 with
      | none => none
      | some (e, rest2) =>
        let k := fracDigits.length
        let mantNat : Nat := natOfDigits intDigits * 10 ^ k + natOfDigits fracDigits
        let mant : Int := if sgncs.1 then -(mantNat : Int) else (mantNat : Int)
        some (decToRat mant (e - (k : Int)), rest2)

/-- Parse the body of a JSON string (the opening quote already consumed),
handling the escape sequences of the JSON grammar, including `\uXXXX` with
UTF-16 surrogate pairing.  Fuel-bounded; `acc` holds the characters read so
far in reverse. -/
def pstring : Nat → List Char → List Char → Option (String × List Char)
  | 0, _, _ => none
  | _ + 1, _, [] => none
  | fuel + 1, acc, c :: r =>
    if c = '"' then some (String.mk acc.reverse, r)
    else if c = '\\' then
      match r with
      | [] => none
      | e :: r2 =>
        if e = '"' then pstring fuel ('"' :: acc) r2
        else if e = '\\' then pstring fuel ('\\' :: acc) r2
        else if e = '/' then pstring fuel ('/' :: acc) r2
        else if e = 'b' then pstring fuel (Char.ofNat 8 :: acc) r2
        else if e = 'f' then pstring fuel (Char.ofNat 12 :: acc) r2
        else if e = 'n' then pstring fuel ('\n' :: acc) r2
        else if e = 'r' then pstring fuel ('\r' :: acc) r2
        else if e = 't' then pstring fuel ('\t' :: acc) r2
        else if e = 'u' then
          match r2 with
          | h1 :: h2 :: h3 :: h4 :: r3 =>
            match hexVal h1, hexVal h2, hexVal h3, hexVal h4 with
            | some a, some b, some c2, some d =>
              let n := ((a * 16 + b) * 16 + c2) * 16 + d
              if 0xD800 ≤ n ∧ n ≤ 0xDBFF then
                match r3 with
                | '\\' :: 'u' :: g1 :: g2 :: g3 :: g4 :: r4 =>
                  match hexVal g1, hexVal g2, hexVal g3, hexVal g4 with
                  | some a2, some b2, some c3, some d2 =>
                    let m := ((a2 * 16 + b2) * 16 + c3) * 16 + d2
                    if 0xDC00 ≤ m ∧ m ≤ 0xDFFF then
                      pstring fuel
                        (Char.ofNat (0x10000 + (n - 0xD800) * 0x400 + (m - 0xDC00)) :: acc) r4
                    else pstring fuel (Char.ofNat n :: acc) r3
                  | _, _, _, _ => pstring fuel (Char.ofNat n :: acc) r3
                | _ => pstring fuel (Char.ofNat n :: acc) r3
              else pstring fuel (Char.ofNat n :: acc) r3
            | _, _, _, _ => none
          | _ => none
        else none
    else if c.toNat < 32 then none
    else pstring fuel (c :: acc) r

mutual

/-- Parse one JSON value (after skipping leading whitespace). -/
def pvalue : Nat → List Char → Option (Json × List Char)
  | 0, _ => none
  | fuel + 1, cs =>
    match skipWs cs with
    | [] => none
    | c :: r =>
      if c = 'n' then
        match r with
        | 'u' :: 'l' :: 'l' :: r2 => some (.null, r2)
        | _ => none
      else if c = 't' then
        match r with
        | 'r' :: 'u' :: 'e' :: r2 => some (.bool true, r2)
        | _ => none
      else if c = 'f' then
        match r with
        | 'a' :: 'l' :: 's' :: 'e' :: r2 => some (.bool false, r2)
        | _ => none
      else if c = '"' then
        match pstring (r.length + 1) [] r with
        | some (s, rest) => some (.str s, rest)
        | none => none
      else if c = '[' then pelems fuel r
      else if c = braceOpen then pmembers fuel r
      else
        match pnumber (c :: r) with
        | some (q, rest) => some (.num q, rest)
        | none => none

/-- Parse the elements of a JSON array, the opening bracket already consumed. -/
def pelems : Nat → List Char → Option (Json × List Char)
  | 0, _ => none
  | fuel + 1, cs =>
    match skipWs cs with
    | ']' :: r => some (.arr [], r)
    | _ =>
      match pvalue fuel cs with
      | none => none
      | some (v, rest) => pelemsTail fuel [v] rest

/-- Parse the `, value` continuation of a JSON array. -/
def pelemsTail : Nat → List Json → List Char → Option (Json × List Char)
  | 0, _, _ => none
  | fuel + 1, acc, cs =>
    match skipWs cs with
    | ',' :: r =>
      match pvalue fuel r with
      | none => none
      | some (v, rest) => pelemsTail fuel (acc ++ [v]) rest
    | ']' :: r => some (.arr acc, r)
    | _ => none

/-- Parse the members of a JSON object, the opening brace already consumed. -/
def pmembers : Nat → List Char → Option (Json × List Char)
  | 0, _ => none
  | fuel + 1, cs =>
    match skipWs cs with
    | c :: r =>
      if c = braceClose then some (.obj [], r)
      else
        match pmember fuel (c :: r) with
        | none => none
        | some (kv, rest) => pmembersTail fuel [kv] rest
    | [] => none

/-- Parse one `"key" : value` member of a JSON object. -/
def pmember : Nat → List Char → Option ((String × Json) × List Char)
  | 0, _ => none
  | fuel + 1, cs =>
    match skipWs cs with
    | c :: r =>
      if c = '"' then
        match pstring (r.length + 1) [] r with
        | none => none
        | some (k, rest) =>
          match skipWs rest with
          | ':' :: r2 =>
            match pvalue fuel r2 with
            | some (v, rest2) => some ((k, v), rest2)
            | none => none
          | _ => none
      else none
    | [] => none

/-- Parse the `, "key" : value` continuation of a JSON object. -/
def pmembersTail : Nat → List (String × Json) → List Char → Option (Json × List Char)
  | 0, _, _ => none
  | fuel + 1, acc, cs =>
    match skipWs cs with
    | ',' :: r =>
      match pmember fuel r with
      | none => none
      | some (kv, rest) => pmembersTail fuel (acc ++ [kv]) rest
    | c :: r =>
      if c = braceClose then some (.obj acc, r) else none
    | [] => none

end

/-- `JSON.parse` on a character list: parse one value and require that only
whitespace remains.  Returns `none` where JavaScript would throw. -/
def jsonParseL (cs : List Char) : Option Json :=
  match pvalue (2 * cs.length + 4) cs with
  | some (v, rest) => if skipWs rest = [] then some v else none
  | none => none

/-- `JSON.parse` on a string. -/
def jsonParse (s : String) : Option Json := jsonParseL s.toList


/-! ## Bracket search and slicing (JS `indexOf` / `lastIndexOf` / `slice`) -/

/-- Index of the first occurrence of a character, as JS `String.indexOf`
restricted to single-character needles (`none` standing for `-1`). -/
def firstIdxOf (c : Char) : List Char → Option Nat
  | [] => none
  | x :: xs => if x = c then some 0 else (firstIdxOf c xs).map (· + 1)

/-- Index of the last occurrence of a character, as JS `String.lastIndexOf`. -/
def lastIdxOf (c : Char) (cs : List Char) : Option Nat :=
  (firstIdxOf c cs.reverse).map (fun i => cs.length - 1 - i)

/-- JS `text.slice(a, b)` on character lists (indices assumed in range). -/
def sliceL (cs : List Char) (a b : Nat) : List Char := (cs.drop a).take (b - a)

/-- Whether an optional parse result is a JSON array (JS `Array.isArray` on the
result of a successful `JSON.parse`). -/
def isSomeArr : Option Json → Bool
  | some (.arr _) => true
  | _ => false

/-- `takeFirstJsonArray` from PPX.ts: try `JSON.parse` on the whole text and
return it when it is an array; otherwise parse the substring from the first
open bracket to the last close bracket; `none` models its `null`. -/
def takeFirstJsonArrayL (cs : List Char) : Option (List Json) :=
  match jsonParseL cs with
  | some (.arr xs) => some xs
  | _ =>
    match firstIdxOf '[' cs, lastIdxOf ']' cs with
    | some a, some b =>
      if a < b then
        match jsonParseL (sliceL cs a (b + 1)) with
        | some (.arr xs) => some xs
        | _ => none
      else none
    | _, _ => none

/-- String-level wrapper for `takeFirstJsonArrayL`. -/
def takeFirstJsonArray (text : String) : Option (List Json) :=
  takeFirstJsonArrayL text.toList

/-- `extractJsonArray` from the Wordcloud component: same algorithm as
`takeFirstJsonArray` but returning the empty array on failure. -/
def extractJsonArrayL (cs : List Char) : List Json :=
  match jsonParseL cs with
  | some (.arr xs) => xs
  | _ =>
    match firstIdxOf '[' cs, lastIdxOf ']' cs with
    | some a, some b =>
      if a < b then
        match jsonParseL (sliceL cs a (b + 1)) with
        | some (.arr xs) => xs
        | _ => []
      else []
    | _, _ => []

/-- String-level wrapper for `extractJsonArrayL`. -/
def extractJsonArray (text : String) : List Json := extractJsonArrayL text.toList

/-! ## Record coercion -/

/-- JS `String.prototype.trim`, embedded over character lists (the ASCII
whitespace relevant here; JS also strips some exotic Unicode spaces). -/
def jsTrim (s : String) : String :=
  String.mk (((s.toList.dropWhile Char.isWhitespace).reverse.dropWhile
    Char.isWhitespace).reverse)

/-- JS `String.prototype.toLowerCase`, embedded over character lists (ASCII
case mapping, which covers the city names and keywords compared here). -/
def jsLower (s : String) : String := String.mk (s.toList.map Char.toLower)

/-- A timeline event as produced by `tryParseEvents` and stored by the
timeline widget (`Timeline.tsx`); the coercion always fills every field. -/
structure TimelineEvent where
  id : String
  date : String
  title : String
  description : String
  icon : String
  color : String
deriving Repr, DecidableEq

/-- JS property access `obj[k]` on a parsed JSON value: `none` models
`undefined` (also for access on non-objects, whose named properties are
absent here); on duplicate keys `JSON.parse` keeps the last occurrence. -/
def jget (v : Json) (k : String) : Option Json :=
  match v with
  | .obj fields => ((fields.filter (fun kv => kv.1 == k)).getLast?).map (·.2)
  | _ => none

/-- The JS nullish-coalescing operator `a ?? b` on looked-up JSON fields:
`b` when `a` is absent (`undefined`) or JSON `null`. -/
def jcoalesce (a b : Option Json) : Option Json :=
  match a with
  | some .null => b
  | none => b
  | some v => some v

/-- `new Date('1900-01-01').toISOString()`: ECMA-262 parses a date-only ISO
string as UTC midnight, so this is a fixed constant. -/
def sentinelIso : String := "1900-01-01T00:00:00.000Z"

/-- `toIso` from `tryParseEvents` (Map.tsx): a non-string or
whitespace-only date, or one that `new Date` cannot parse, becomes the
1900-01-01 sentinel; otherwise the ISO rendering of the parsed date.
`jsDate` is the oracle for `new Date(s).toISOString()`, `none` meaning an
invalid date (`NaN` time value). -/
def toIso (jsDate : String → Option String) (d : Option Json) : String :=
  match d with
  | some (.str s) =>
    if jsTrim s = "" then sentinelIso
    else
      match jsDate s with
      | some iso => iso
      | none => sentinelIso
  | _ => sentinelIso

/-- One step of the `coerce` mapper inside `tryParseEvents`: every field
falls back to an explicit default (`String(idx + 1)` for the id, the
sentinel date, `Untitled`, the empty description, a calendar-glyph icon,
a default hex color). -/
def coerceEvent (jsDate : String → Option String) (idx : Nat) (raw : Json) :
    TimelineEvent where
  id := match jget raw "id" with
    | some (.str s) => s
    | _ => toString (idx + 1)
  date := toIso jsDate (jget raw "date")
  title := match jget raw "title" with
    | some (.str s) => s
    | _ => "Untitled"
  description := match jget raw "description" with
    | some (.str s) => s
    | _ => ""
  icon := match jget raw "icon" with
    | some (.str s) => s
    | _ => "📅"
  color := match jget raw "color" with
    | some (.str s) => s
    | _ => "#3498db"

/-- `arr.map((raw, idx) => ...)` of the event coercion, carrying the element
index. -/
def coerceEvents (jsDate : String → Option String) : Nat → List Json → List TimelineEvent
  | _, [] => []
  | idx, raw :: rest => coerceEvent jsDate idx raw :: coerceEvents jsDate (idx + 1) rest

/-- `tryParseEvents` from Map.tsx: parse the whole text as a JSON array, or
the first-to-last-bracket substring, and coerce; `[]` on failure. -/
def tryParseEventsL (jsDate : String → Option String) (cs : List Char) :
    List TimelineEvent :=
  match jsonParseL cs with
  | some (.arr xs) => coerceEvents jsDate 0 xs
  | _ =>
    match firstIdxOf '[' cs, lastIdxOf ']' cs with
    | some a, some b =>
      if a < b then
        match jsonParseL (sliceL cs a (b + 1)) with
        | some (.arr xs) => coerceEvents jsDate 0 xs
        | _ => []
      else []
    | _, _ => []

/-- String-level wrapper for `tryParseEventsL`. -/
def tryParseEvents (jsDate : String → Option String) (text : String) :
    List TimelineEvent :=
  tryParseEventsL jsDate text.toList

/-- A cited source inside a life hop (PPX.ts `SourceRef`). -/
structure SourceRef where
  title : String
  url : String
deriving Repr, DecidableEq

/-- A life hop (PPX.ts `LifeHop`). -/
structure LifeHop where
  city : String
  startDate : Option String := none
  endDate : Option String := none
  description : Option String := none
  sources : Option (List SourceRef) := none
deriving Repr, DecidableEq

/-- Decide whether a two-character group matches the month alternative
`0[1-9]|1[0-2]` of the date regex in `normalizeDateLike`. -/
def isMonthPair (a b : Char) : Bool :=
  (a == '0' && decide ('1' ≤ b) && decide (b ≤ '9')) ||
  (a == '1' && decide ('0' ≤ b) && decide (b ≤ '2'))

/-- Decide whether a two-character group matches the day alternative
`0[1-9]|[12]\d|3[01]` of the date regex in `normalizeDateLike`. -/
def isDayPair (a b : Char) : Bool :=
  (a == '0' && decide ('1' ≤ b) && decide (b ≤ '9')) ||
  ((a == '1' || a == '2') && b.isDigit) ||
  (a == '3' && (b == '0' || b == '1'))

/-- The anchored regex of `normalizeDateLike`:
four digits, then an optional month group and an optional day group (each
preceded by a dash); with backtracking, a single dashed group may match
either alternative. -/
def dateLikeOk (t : String) : Bool :=
  match t.toList with
  | d1 :: d2 :: d3 :: d4 :: rest =>
    d1.isDigit && d2.isDigit && d3.isDigit && d4.isDigit &&
    (match rest with
     | [] => true
     | '-' :: x :: y :: [] => isMonthPair x y || isDayPair x y
     | '-' :: x :: y :: '-' :: z :: w :: [] => isMonthPair x y && isDayPair z w
     | _ => false)
  | _ => false

/-- `normalizeDateLike` from PPX.ts: keep a trimmed nonempty string matching
the `YYYY(-MM)?(-DD)?` pattern, else `undefined`. -/
def normalizeDateLike (input : Option Json) : Option String :=
  match input with
  | some (.str s) =>
    let v := jsTrim s
    if v = "" then none
    else if dateLikeOk v then some v else none
  | _ => none

/-- Coercion of one entry of a `sources` array: trim `title` and `url` when
they are strings, drop the entry when both end up empty. -/
def coerceSrc (s : Json) : Option SourceRef :=
  let title := match jget s "title" with
    | some (.str t) => jsTrim t
    | _ => ""
  let url := match jget s "url" with
    | some (.str u) => jsTrim u
    | _ => ""
  if title = "" ∧ url = "" then none else some ⟨title, url⟩

/-- Coercion of one raw element into a `LifeHop` (`coerceLifeHops` loop body):
an element whose `city` is missing, not a string, or trims to empty is
dropped (`continue`); otherwise every other field is best-effort coerced. -/
def coerceHop (it : Json) : Option LifeHop :=
  let city := match jget it "city" with
    | some (.str s) => jsTrim s
    | _ => ""
  if city = "" then none
  else some
    { city := city
      startDate := normalizeDateLike (jcoalesce (jget it "start_date") (jget it "startDate"))
      endDate := normalizeDateLike (jcoalesce (jget it "end_date") (jget it "endDate"))
      description :=
        match jcoalesce (jcoalesce (jget it "description") (jget it "summary"))
            (jget it "activity") with
        | some (.str d) => some (jsTrim d)
        | _ => none
      sources :=
        match jget it "sources" with
        | some (.arr ss) => some (ss.filterMap coerceSrc)
        | _ => none }

/-- The key used for consecutive-duplicate collapsing: city, trimmed and
lower-cased. -/
def hopKey (h : LifeHop) : String := jsLower (jsTrim h.city)

/-- The body of the dedup loop at the end of `coerceLifeHops`: compare the
candidate against the last retained element (`dedup[dedup.length - 1]`),
skip on equal keys, push otherwise. -/
def dedupStep (dedup : List LifeHop) (h : LifeHop) : List LifeHop :=
  match dedup.getLast? with
  | some prev => if hopKey prev = hopKey h then dedup else dedup ++ [h]
  | none => dedup ++ [h]

/-- The dedup loop at the end of `coerceLifeHops`, as a fold of its body. -/
def dedupHops (hops : List LifeHop) : List LifeHop :=
  hops.foldl dedupStep []

/-- `coerceLifeHops` from PPX.ts: per-element coercion (dropping city-less
elements), then consecutive-duplicate collapsing. -/
def coerceLifeHops (rawArr : List Json) : List LifeHop :=
  dedupHops (rawArr.filterMap coerceHop)

/-- Modelled from the spec, for comparison against `dedupHops`: drop an
element exactly when its key equals the key of the previous retained
element (helper carrying the previous retained element). -/
def collapseSpecGo (prev : LifeHop) : List LifeHop → List LifeHop
  | [] => []
  | h :: t =>
    if hopKey h = hopKey prev then collapseSpecGo prev t
    else h :: collapseSpecGo h t

/-- Modelled from the spec, for comparison against `dedupHops`: the first
element is always retained; afterwards an element is dropped exactly when
its key equals the previous retained element's key. -/
def collapseSpec : List LifeHop → List LifeHop
  | [] => []
  | h :: t => h :: collapseSpecGo h t

/-! ## Timeline store (`Timeline.tsx`) -/

/-- The comparator used by the timeline sort, as a relation: `timeOf` is the
oracle for `new Date(dateString).getTime()` (dates assumed comparable; a
`NaN` time value would make the JS comparator inconsistent and is outside
this model). -/
def eventLe (timeOf : String → Int) (a b : TimelineEvent) : Prop :=
  timeOf a.date ≤ timeOf b.date

instance (timeOf : String → Int) : DecidableRel (eventLe timeOf) :=
  fun a b => Int.decLe _ _

instance (timeOf : String → Int) : IsTotal TimelineEvent (eventLe timeOf) :=
  ⟨fun a b => Int.le_total _ _⟩

instance (timeOf : String → Int) : IsTrans TimelineEvent (eventLe timeOf) :=
  ⟨fun _ _ _ => Int.le_trans⟩

/-- `addEvent` from the timeline's imperative handle: a no-op when the id is
already present, otherwise append and re-sort ascending by date (JS
`Array.prototype.sort` is stable, as is `List.insertionSort`). -/
def addEvent (timeOf : String → Int) (prev : List TimelineEvent)
    (event : TimelineEvent) : List TimelineEvent :=
  if event.id ∈ prev.map TimelineEvent.id then prev
  else List.insertionSort (eventLe timeOf) (prev ++ [event])

/-- A sequence of `addEvent` calls against an initially cleared store
(`getEvents` returns the list itself, up to copying). -/
def runAddEvents (timeOf : String → Int) (evs : List TimelineEvent) :
    List TimelineEvent :=
  evs.foldl (addEvent timeOf) []

/-! ## Keyword store (Wordcloud component) -/

/-- A word-cloud item (`WordItem` in the source); the weight is a JS number,
modelled as a rational. -/
structure WordItem where
  word : String
  weight : Rat
deriving Repr, DecidableEq

/-- `clamp(v, min, max)` from the Wordcloud component. -/
def clamp (v lo hi : Rat) : Rat := max lo (min hi v)

/-- `addKeyword` from the word-cloud imperative handle: no-op when the
lower-cased word is already present, else append the clamped item and cap at
`maxWords` (`slice(0, maxWords)`).  `none` for the weight models an omitted
argument (default `1`). -/
def addKeyword (maxWords : Nat) (prev : List WordItem) (word : String)
    (weight : Option Rat) : List WordItem :=
  if jsLower word ∈ prev.map (fun w => jsLower w.word) then prev
  else (prev ++ [WordItem.mk word (clamp (weight.getD 1) 1 100)]).take maxWords

/-- The collection loop of `addKeywords`: skip empty or already-seen keys,
push clamped items, and break once the combined length reaches `maxWords`. -/
def collectAdditions (maxWords prevLen : Nat) (seen : List String)
    (acc : List WordItem) : List (String × Option Rat) → List WordItem
  | [] => acc
  | (w, wt) :: rest =>
    if jsLower w = "" ∨ jsLower w ∈ seen then
      collectAdditions maxWords prevLen seen acc rest
    else if maxWords ≤ prevLen + (acc ++ [WordItem.mk w (clamp (wt.getD 1) 1 100)]).length then
      acc ++ [WordItem.mk w (clamp (wt.getD 1) 1 100)]
    else
      collectAdditions maxWords prevLen (jsLower w :: seen)
        (acc ++ [WordItem.mk w (clamp (wt.getD 1) 1 100)]) rest

/-- `addKeywords` from the word-cloud imperative handle. -/
def addKeywords (maxWords : Nat) (prev : List WordItem)
    (words : List (String × Option Rat)) : List WordItem :=
  let additions :=
    collectAdditions maxWords prev.length (prev.map (fun w => jsLower w.word)) [] words
  (prev ++ additions).take maxWords

/-- The trimmed `word` field of a raw keyword item (empty when missing or
not a string). -/
def kwWordOf (it : Json) : String :=
  match jget it "word" with
  | some (.str s) => jsTrim s
  | _ => ""

/-- The `weight` field of a raw keyword item (`1` when missing or not a
number). -/
def kwWeightOf (it : Json) : Rat :=
  match jget it "weight" with
  | some (.num q) => q
  | _ => 1

/-- The collection loop of `normalizeKeywords`: skip items with an empty
trimmed word or an already-seen lower-cased key, clamp weights (a missing or
non-number weight defaults to `1`), and break once `maxWords` items were
collected. -/
def normalizeKeywordsGo (maxWords : Nat) (seen : List String)
    (out : List WordItem) : List Json → List WordItem
  | [] => out
  | it :: rest =>
    if kwWordOf it = "" then normalizeKeywordsGo maxWords seen out rest
    else if jsLower (kwWordOf it) ∈ seen then
      normalizeKeywordsGo maxWords seen out rest
    else if maxWords ≤ (out ++ [WordItem.mk (kwWordOf it) (clamp (kwWeightOf it) 1 100)]).length then
      out ++ [WordItem.mk (kwWordOf it) (clamp (kwWeightOf it) 1 100)]
    else
      normalizeKeywordsGo maxWords (jsLower (kwWordOf it) :: seen)
        (out ++ [WordItem.mk (kwWordOf it) (clamp (kwWeightOf it) 1 100)]) rest

/-- `normalizeKeywords` from the Wordcloud component: non-arrays normalize as
the empty array. -/
def normalizeKeywords (items : Json) (maxWords : Nat) : List WordItem :=
  let arr := match items with
    | .arr xs => xs
    | _ => ([] : List Json)
  normalizeKeywordsGo maxWords [] [] arr

/-- An operation against the keyword store's imperative handle. -/
inductive KwOp where
  | add : String → Option Rat → KwOp
  | addMany : List (String × Option Rat) → KwOp

/-- Apply one keyword-store operation. -/
def applyKwOp (maxWords : Nat) (prev : List WordItem) : KwOp → List WordItem
  | .add w wt => addKeyword maxWords prev w wt
  | .addMany ws => addKeywords maxWords prev ws

/-- A sequence of keyword-store operations from the initial empty store. -/
def runKwOps (maxWords : Nat) (ops : List KwOp) : List WordItem :=
  ops.foldl (applyKwOp maxWords) []

/-! ## Description fetch lifecycle (`Desc.tsx`) -/

/-- The observable state of the description slot. -/
structure DescState where
  descText : Option String
  descLoading : Bool
  descError : Option String
deriving Repr, DecidableEq

/-- The state updates at the start of `fetchDescription` (loading on, text
and error cleared). -/
def descStart (_st : DescState) : DescState :=
  { descText := none, descLoading := true, descError := none }

/-- Outcome of the awaited search call: the response text, or a thrown
error's optional `message`. -/
inductive CallOutcome where
  | ok : String → CallOutcome
  | err : Option String → CallOutcome

/-- The try/catch/finally of `fetchDescription` after the await: every state
mutation is guarded by `!ctrl.signal.aborted`, checked at the point of
applying the result. -/
def descApply (aborted : Bool) (outcome : CallOutcome) (st : DescState) :
    DescState :=
  let st1 := match outcome with
    | .ok text =>
      if aborted = false then { st with descText := some (jsTrim text) } else st
    | .err msg =>
      if aborted = false then
        { st with descError := some (msg.getD ("Failed to fetch description")) }
      else st
  if aborted = false then { st1 with descLoading := false } else st1

/-! ## Insight query lifecycle (`DataVizMap.tsx`) -/

/-- The observable state of the insight slot (the numeric/interval results of
the success path are folded into the opaque `applySuccess` continuation of
`insightApply`). -/
structure InsightState where
  insightResult : Option String
  insightError : Option String
  insightLoading : Bool
deriving Repr, DecidableEq

/-- A thrown JS error as inspected by the insight catch block: whether it is
a `DOMException` named `AbortError`, and its optional `message`. -/
structure JsError where
  isAbortError : Bool
  message : Option String

/-- Outcome of the awaited insight call. -/
inductive InsightOutcome where
  | ok : String → InsightOutcome
  | err : JsError → InsightOutcome

/-- The try/catch/finally of `handleInsightSubmit` after the await: the
success branch (numeric parsing, bucket assignment, result text) runs only
when the signal is not aborted and is abstracted by `applySuccess`; the
catch branch records an error exactly when the thrown error is not an
`AbortError`; the finally branch clears the loading flag unless the signal
was aborted. -/
def insightApply (applySuccess : String → InsightState → InsightState)
    (signalAborted : Bool) (outcome : InsightOutcome) (st : InsightState) :
    InsightState :=
  let st1 := match outcome with
    | .ok text => if signalAborted = false then applySuccess text st else st
    | .err e =>
      if e.isAbortError = false then
        { st with insightError := some (e.message.getD ("Failed to fetch data.")) }
      else st
  if signalAborted = false then { st1 with insightLoading := false } else st1

/-! ## Timeline orchestration (`Map.tsx` effect) -/

/-- The observable state of the timeline slot owned by the Map component. -/
structure TimelineSlotState where
  events : List TimelineEvent
  ppxLoading : Bool
  ppxError : Option String
deriving Repr, DecidableEq

/-- One event visible to the timeline effect: a new trigger (selection
change with a nonempty scoped city), the resolution of some earlier issued
call with response text, or its rejection with an error message.  The source
effect keeps no token, so a resolution always runs against the current
state, whichever trigger issued it. -/
inductive SlotAct where
  | trigger : SlotAct
  | resolve : String → SlotAct
  | reject : Option String → SlotAct

/-- One step of the Map.tsx timeline effect, exactly as written: a trigger
clears the store and enters loading; a resolution parses and, when nonempty,
appends every parsed event through `addEvent` with no staleness check of any
kind; a rejection records the error message.  (The inter-item 250 ms delays
only spread the same `addEvent` calls over time and are elided; the final
store contents are the fold.) -/
def timelineStep (jsDate : String → Option String) (timeOf : String → Int)
    (st : TimelineSlotState) : SlotAct → TimelineSlotState
  | .trigger => { events := [], ppxLoading := true, ppxError := none }
  | .resolve text =>
    let evs := tryParseEvents jsDate text
    if evs.isEmpty then
      { st with ppxError := some ("No events parsed from model response"),
                ppxLoading := false }
    else
      { st with events := evs.foldl (addEvent timeOf) st.events,
                ppxLoading := false }
  | .reject msg =>
    { st with ppxError := some (msg.getD ("Failed to generate timeline")),
              ppxLoading := false }

/-- Run a script of timeline-slot events from the initial state. -/
def runTimelineSlot (jsDate : String → Option String) (timeOf : String → Int)
    (acts : List SlotAct) : TimelineSlotState :=
  acts.foldl (timelineStep jsDate timeOf)
    { events := [], ppxLoading := false, ppxError := none }

/-! ## Person life path (`fetchPersonLifePath`, PPX.ts) -/

/-- The prompt built by `fetchPersonLifePath` (its content is irrelevant to
the claims; included so the call structure matches the source). -/
def lifePathPrompt (name : String) : String :=
  String.intercalate ("\n")
    [ "Task: Output a chronological sequence of major city-to-city moves for the famous person below.",
      "Return STRICT JSON only: an array where each item is \x7b" ++
        "\"city\": string (in format cityname, regionname, countryname), \"start_date\": string|null, \"end_date\": string|null, \"description\": string (1-2 sentences)," ++
        "\"sources\"?: [\x7b\"title\": string, \"url\": string\x7d] \x7d",
      "Rules:",
      "- City names must be in English.",
      "- No consecutive duplicate cities (allow revisits later in the array).",
      "- Include major relocations or multi-year stays or birth cities and death cities; omit trivial short trips.",
      "- Dates may be YYYY or YYYY-MM or YYYY-MM-DD when precise; use null if unknown.",
      "- Keep it concise (10-15 hops).",
      "Person: " ++ name ]

/-- `fetchPersonLifePath`: a null or blank (after trim) person name returns
the empty list immediately; otherwise issue the search (`search` is the
oracle for the awaited `proSearchText` response text), extract the first
JSON array and coerce.  The boolean records whether a search query was
issued. -/
def fetchPersonLifePath (search : String → String) (personName : Option String) :
    List LifeHop × Bool :=
  let name := jsTrim (personName.getD "")
  if name = "" then ([], false)
  else
    let text := search (lifePathPrompt name)
    match takeFirstJsonArray text with
    | none => ([], true)
    | some arr => (coerceLifeHops arr, true)

/-! ## Predicates and concrete oracles used by the theorems -/

/-- Whether a raw timeline element's `date` field is missing, not a string,
whitespace-only, or rejected by `new Date` (oracle `jsDate`). -/
def rawDateInvalid (jsDate : String → Option String) (raw : Json) : Bool :=
  match jget raw "date" with
  | some (.str s) => jsTrim s == "" || (jsDate s).isNone
  | _ => true

/-- Whether a raw element's field `k` is missing or not a string. -/
def rawFieldNotString (raw : Json) (k : String) : Bool :=
  match jget raw k with
  | some (.str _) => false
  | _ => true

/-- Whether a raw life-hop element's `city` field is missing, not a string,
or trims to the empty string. -/
def cityInvalid (it : Json) : Bool :=
  match jget it "city" with
  | some (.str s) => jsTrim s == ""
  | _ => true

/-- Date oracle for the C1 trace: the two event dates parse to their ISO
renderings, everything else is invalid. -/
def jsDateC1 : String → Option String := fun s =>
  if s = "2020-01-01" then some ("2020-01-01T00:00:00.000Z")
  else if s = "2021-06-01" then some ("2021-06-01T00:00:00.000Z")
  else none

/-- Time oracle for the C1 trace, ordering the two ISO dates. -/
def timeOfC1 : String → Int := fun s =>
  if s = "2020-01-01T00:00:00.000Z" then 0
  else if s = "2021-06-01T00:00:00.000Z" then 1
  else 2

/-- Response text of the first (stale) trigger in the C1 trace. -/
def t1TextC1 : String :=
  "[\x7b\"id\":\"1\",\"date\":\"2020-01-01\",\"title\":\"X\",\"description\":\"d\"\x7d]"

/-- Response text of the second (current) trigger in the C1 trace. -/
def t2TextC1 : String :=
  "[\x7b\"id\":\"2\",\"date\":\"2021-06-01\",\"title\":\"Y\",\"description\":\"e\"\x7d]"

/-! ## Lemmas about bracket search and slicing -/

theorem firstIdxOf_append_of_not_mem (c : Char) (pre rest : List Char)
    (h : c ∉ pre) :
    firstIdxOf c (pre ++ rest) = (firstIdxOf c rest).map (· + pre.length) := by
  induction pre with
  | nil => cases hx : firstIdxOf c rest <;> simp [hx]
  | cons a t ih =>
    simp only [List.mem_cons, not_or] at h
    obtain ⟨hne, ht⟩ := h
    have hac : ¬ a = c := fun e => hne e.symm
    cases hx : firstIdxOf c rest <;>
      simp [firstIdxOf, hac, ih ht, hx] <;> omega

theorem firstIdxOf_embedded (pre t post : List Char) (h : '[' ∉ pre) :
    firstIdxOf '[' (pre ++ ('[' :: t) ++ post) = some pre.length := by
  rw [List.append_assoc, firstIdxOf_append_of_not_mem '[' pre _ h]
  simp [firstIdxOf]

theorem lastIdxOf_embedded (pre u post : List Char) (h : ']' ∉ post) :
    lastIdxOf ']' (pre ++ (u ++ [']']) ++ post) = some (pre.length + u.length) := by
  unfold lastIdxOf
  have hnp : ']' ∉ post.reverse := by simpa using h
  have hrev : (pre ++ (u ++ [']']) ++ post).reverse
      = post.reverse ++ ((']' :: u.reverse) ++ pre.reverse) := by
    simp
  rw [hrev, firstIdxOf_append_of_not_mem ']' post.reverse _ hnp]
  have h0 : firstIdxOf ']' ((']' :: u.reverse) ++ pre.reverse) = some 0 := by
    simp [firstIdxOf]
  rw [h0]
  simp
  omega

theorem sliceL_embedded (pre s post : List Char) :
    sliceL (pre ++ s ++ post) pre.length (pre.length + s.length) = s := by
  unfold sliceL
  rw [List.append_assoc, List.drop_left]
  have h : pre.length + s.length - pre.length = s.length := by omega
  rw [h, List.take_left]

/-- C2 counterexample: the text `a [ b [1]` contains exactly one valid JSON
array, `[1]`, embedded in prose, and a direct parse of that isolated
substring yields `[1]`; but because the prose contains a stray `[` before
the array, the first-bracket-to-last-bracket slice is `[ b [1]`, which does
not parse, so `takeFirstJsonArray` returns null instead of that array —
refuting the claim as stated. -/
theorem takeFirstJsonArray_stray_bracket_counterexample :
    jsonParse ("[1]") = some (Json.arr [Json.num 1])
      ∧ takeFirstJsonArray ("a [ b [1]") = none :=
  ⟨rfl, rfl⟩

/-- C2 (amended): for every text blob `pre ++ s ++ post` in which the
embedded array substring `s` (starting with `[` and ending with `]`, and
parsing as the JSON array `xs`) is preceded by prose with no `[` and
followed by prose with no `]`, and the whole blob itself does not parse as a
JSON array, `takeFirstJsonArray` returns exactly the array a direct
`JSON.parse` on the isolated substring yields. -/
theorem takeFirstJsonArray_extracts_embedded_array
    (pre s post : List Char) (xs : List Json)
    (hpre : '[' ∉ pre) (hpost : ']' ∉ post)
    (hhead : s.head? = some '[') (hlast : s.getLast? = some ']')
    (hs : jsonParseL s = some (Json.arr xs))
    (hwhole : isSomeArr (jsonParseL (pre ++ s ++ post)) = false) :
    takeFirstJsonArrayL (pre ++ s ++ post) = some xs := by
  obtain ⟨t, rfl⟩ : ∃ t, s = '[' :: t := by
    cases s with
    | nil => simp at hhead
    | cons a t =>
      simp at hhead
      exact ⟨t, by rw [hhead]⟩
  obtain ⟨u, hu⟩ : ∃ u, ('[' : Char) :: t = u ++ [']'] := by
    have hrev : (('[' : Char) :: t).reverse.head? = some ']' := by
      rw [List.head?_reverse]; exact hlast
    cases hR : (('[' : Char) :: t).reverse with
    | nil => rw [hR] at hrev; simp at hrev
    | cons y v =>
      rw [hR] at hrev
      simp at hrev
      refine ⟨v.reverse, ?_⟩
      have hRR := congrArg List.reverse hR
      simpa [hrev] using hRR
  have hupos : 1 ≤ u.length := by
    cases u with
    | nil => simp at hu
    | cons _ _ => simp
  have hlen : (('[' : Char) :: t).length = u.length + 1 := by rw [hu]; simp
  have hfi : firstIdxOf '[' (pre ++ ('[' :: t) ++ post) = some pre.length :=
    firstIdxOf_embedded pre t post hpre
  have hli : lastIdxOf ']' (pre ++ ('[' :: t) ++ post)
      = some (pre.length + u.length) := by
    rw [hu]; exact lastIdxOf_embedded pre u post hpost
  have hslice : sliceL (pre ++ ('[' :: t) ++ post) pre.length
      ((pre.length + u.length) + 1) = '[' :: t := by
    have he : (pre.length + u.length) + 1 = pre.length + (('[' : Char) :: t).length := by
      omega
    rw [he]
    exact sliceL_embedded pre _ post
  unfold takeFirstJsonArrayL
  cases hj : jsonParseL (pre ++ ('[' :: t) ++ post) with
  | none =>
    simp only [hfi, hli]
    rw [if_pos (by omega)]
    rw [hslice, hs]
  | some v =>
    cases v <;> first
      | (simp only [hfi, hli]; rw [if_pos (by omega)]; rw [hslice, hs])
      | (rw [hj] at hwhole; simp [isSomeArr] at hwhole)

/-- Witness for the amended C2 theorem at the blob `here: [1,2] ok`. -/
theorem takeFirstJsonArray_extracts_embedded_array_witness :
    takeFirstJsonArrayL (("here: ").toList ++ ("[1,2]").toList ++ (" ok").toList)
      = some [Json.num 1, Json.num 2] :=
  takeFirstJsonArray_extracts_embedded_array _ _ _ _
    (by decide) (by decide) rfl rfl rfl rfl

/-- C3: for every input with no valid JSON — the whole text does not parse,
and the first-`[`-to-last-`]` substring (when such a bracket pair exists)
does not parse either — the parsers return null / the empty record list.
The embedded functions are total, so no exception can reach the caller. -/
theorem parser_empty_on_invalid (jsDate : String → Option String) (cs : List Char)
    (h1 : jsonParseL cs = none)
    (h2 : ∀ a b, firstIdxOf '[' cs = some a → lastIdxOf ']' cs = some b →
        a < b → jsonParseL (sliceL cs a (b + 1)) = none) :
    takeFirstJsonArrayL cs = none ∧ tryParseEventsL jsDate cs = []
      ∧ extractJsonArrayL cs = [] := by
  refine ⟨?_, ?_, ?_⟩
  · unfold takeFirstJsonArrayL
    rw [h1]
    cases hfa : firstIdxOf '[' cs with
    | none => cases hlb : lastIdxOf ']' cs <;> rfl
    | some a =>
      cases hlb : lastIdxOf ']' cs with
      | none => rfl
      | some b =>
        by_cases hab : a < b
        · simp only [if_pos hab, h2 a b hfa hlb hab]
        · simp only [if_neg hab]
  · unfold tryParseEventsL
    rw [h1]
    cases hfa : firstIdxOf '[' cs with
    | none => cases hlb : lastIdxOf ']' cs <;> rfl
    | some a =>
      cases hlb : lastIdxOf ']' cs with
      | none => rfl
      | some b =>
        by_cases hab : a < b
        · simp only [if_pos hab, h2 a b hfa hlb hab]
        · simp only [if_neg hab]
  · unfold extractJsonArrayL
    rw [h1]
    cases hfa : firstIdxOf '[' cs with
    | none => cases hlb : lastIdxOf ']' cs <;> rfl
    | some a =>
      cases hlb : lastIdxOf ']' cs with
      | none => rfl
      | some b =>
        by_cases hab : a < b
        · simp only [if_pos hab, h2 a b hfa hlb hab]
        · simp only [if_neg hab]

/-- Witness for C3 at the spec's no-data scenario text. -/
theorem parser_empty_on_invalid_witness :
    takeFirstJsonArrayL (("no data available").toList) = none
      ∧ tryParseEventsL (fun _ => none) (("no data available").toList) = []
      ∧ extractJsonArrayL (("no data available").toList) = [] :=
  parser_empty_on_invalid _ _ rfl (fun a b ha _ _ => by
    rw [show firstIdxOf '[' (("no data available").toList) = none from rfl] at ha
    exact Option.noConfusion ha)

/-! ## C4: the timeline store stays sorted -/

theorem sorted_addEvent (timeOf : String → Int) {l : List TimelineEvent}
    (e : TimelineEvent) (h : List.Sorted (eventLe timeOf) l) :
    List.Sorted (eventLe timeOf) (addEvent timeOf l e) := by
  unfold addEvent
  split
  · exact h
  · exact List.sorted_insertionSort (eventLe timeOf) _

theorem sorted_runAddEvents_from (timeOf : String → Int) :
    ∀ (evs init : List TimelineEvent), List.Sorted (eventLe timeOf) init →
      List.Sorted (eventLe timeOf) (evs.foldl (addEvent timeOf) init)
  | [], _, h => h
  | e :: evs, init, h =>
    sorted_runAddEvents_from timeOf evs (addEvent timeOf init e)
      (sorted_addEvent timeOf e h)

/-- C4: after any sequence of `addEvent` upserts against the cleared
timeline store — including insertions out of chronological order — the
events read back are sorted ascending by date, with respect to the
date-time oracle `timeOf` driving the sort comparator. -/
theorem timeline_sorted_after_upserts (timeOf : String → Int)
    (evs : List TimelineEvent) :
    List.Sorted (eventLe timeOf) (runAddEvents timeOf evs) :=
  sorted_runAddEvents_from timeOf evs [] List.sorted_nil

/-! ## C5: key idempotence of the upserts -/

theorem addEvent_noop (timeOf : String → Int) (s : List TimelineEvent)
    (e : TimelineEvent) (h : e.id ∈ s.map TimelineEvent.id) :
    addEvent timeOf s e = s := by
  unfold addEvent
  rw [if_pos h]

theorem addKeyword_noop (m : Nat) (s : List WordItem) (w : String)
    (wt : Option Rat) (h : jsLower w ∈ s.map (fun x => jsLower x.word)) :
    addKeyword m s w wt = s := by
  unfold addKeyword
  rw [if_pos h]

/-- C5 counterexample: a keyword store already at its cap (`maxWords = 1`,
one stored item).  Inserting a fresh key twice leaves the store with ZERO
records for that key — the capped `slice(0, maxWords)` silently drops the
insertion — refuting "inserting the same key twice leaves the store with
exactly one record for that key" as a statement about every store state. -/
theorem upsert_full_keyword_store_counterexample :
    (addKeyword 1 (addKeyword 1 [WordItem.mk ("a") 1] ("b") none) ("b") none).filter
        (fun x => jsLower x.word == jsLower ("b")) = [] := by
  rfl

/-- C5 (amended): inserting a record whose key already exists is a no-op in
both keyed stores, and inserting the same key twice leaves exactly one
record for that key — the first one inserted — unconditionally for the
timeline store, and for the keyword store provided it is strictly below its
`maxWords` cap at the first insertion (a full keyword store drops the
insertion entirely, leaving zero records for that key). -/
theorem upsert_idempotent_on_key (timeOf : String → Int) (m : Nat) :
    (∀ (s : List TimelineEvent) (e : TimelineEvent),
        e.id ∈ s.map TimelineEvent.id → addEvent timeOf s e = s)
  ∧ (∀ (s : List TimelineEvent) (e e2 : TimelineEvent),
        e.id ∉ s.map TimelineEvent.id → e2.id = e.id →
        (addEvent timeOf (addEvent timeOf s e) e2).filter
          (fun r => r.id == e.id) = [e])
  ∧ (∀ (s : List WordItem) (w : String) (wt : Option Rat),
        jsLower w ∈ s.map (fun x => jsLower x.word) → addKeyword m s w wt = s)
  ∧ (∀ (s : List WordItem) (w : String) (wt wt2 : Option Rat),
        jsLower w ∉ s.map (fun x => jsLower x.word) → s.length < m →
        (addKeyword m (addKeyword m s w wt) w wt2).filter
          (fun x => jsLower x.word == jsLower w)
          = [WordItem.mk w (clamp (wt.getD 1) 1 100)]) := by
  refine ⟨addEvent_noop timeOf, ?_, addKeyword_noop m, ?_⟩
  · intro s e e2 hnot he2
    have h1 : addEvent timeOf s e
        = List.insertionSort (eventLe timeOf) (s ++ [e]) := by
      unfold addEvent
      rw [if_neg hnot]
    have hperm : List.Perm (List.insertionSort (eventLe timeOf) (s ++ [e])) (s ++ [e]) :=
      List.perm_insertionSort _ _
    have hmem : e2.id ∈ (addEvent timeOf s e).map TimelineEvent.id := by
      rw [h1, he2]
      exact List.mem_map_of_mem _ (hperm.mem_iff.mpr (by simp))
    rw [addEvent_noop timeOf _ e2 hmem, h1]
    have hfilter := hperm.filter (fun r => r.id == e.id)
    have hsf : (s ++ [e]).filter (fun r => r.id == e.id) = [e] := by
      rw [List.filter_append]
      have hs0 : s.filter (fun r => r.id == e.id) = [] := by
        rw [List.filter_eq_nil_iff]
        intro a ha
        simp only [beq_iff_eq]
        intro hae
        exact hnot (hae ▸ List.mem_map_of_mem _ ha)
      rw [hs0]
      simp
    rw [hsf] at hfilter
    exact List.perm_singleton.mp hfilter
  · intro s w wt wt2 hnot hlen
    have htake : (s ++ [WordItem.mk w (clamp (wt.getD 1) 1 100)]).take m
        = s ++ [WordItem.mk w (clamp (wt.getD 1) 1 100)] := by
      apply List.take_of_length_le
      simp
      omega
    have h1 : addKeyword m s w wt
        = s ++ [WordItem.mk w (clamp (wt.getD 1) 1 100)] := by
      unfold addKeyword
      rw [if_neg hnot, htake]
    have hmem : jsLower w ∈ (addKeyword m s w wt).map (fun x => jsLower x.word) := by
      rw [h1]
      simp
    rw [addKeyword_noop m _ w wt2 hmem, h1, List.filter_append]
    have hs0 : s.filter (fun x => jsLower x.word == jsLower w) = [] := by
      rw [List.filter_eq_nil_iff]
      intro a ha
      simp only [beq_iff_eq]
      intro hae
      exact hnot (hae ▸ List.mem_map_of_mem _ ha)
    rw [hs0]
    simp

/-- Witness for the amended C5 theorem, all four conjuncts at concrete
stores and records. -/
theorem upsert_idempotent_on_key_witness :
    addEvent (fun _ => 0) [TimelineEvent.mk ("1") ("d") ("t") ("x") ("i") ("c")]
        (TimelineEvent.mk ("1") ("d2") ("t2") ("x2") ("i2") ("c2"))
      = [TimelineEvent.mk ("1") ("d") ("t") ("x") ("i") ("c")]
  ∧ (addEvent (fun _ => 0)
        (addEvent (fun _ => 0) []
          (TimelineEvent.mk ("1") ("d") ("t") ("x") ("i") ("c")))
        (TimelineEvent.mk ("1") ("d2") ("t2") ("x2") ("i2") ("c2"))).filter
        (fun r => r.id == ("1"))
      = [TimelineEvent.mk ("1") ("d") ("t") ("x") ("i") ("c")]
  ∧ addKeyword 9 [WordItem.mk ("Rome") 3] ("rome") (some 7)
      = [WordItem.mk ("Rome") 3]
  ∧ (addKeyword 9 (addKeyword 9 [] ("Rome") (some 7)) ("Rome") (some 2)).filter
        (fun x => jsLower x.word == jsLower ("Rome"))
      = [WordItem.mk ("Rome") 7] :=
  ⟨(upsert_idempotent_on_key (fun _ => 0) 9).1
     [TimelineEvent.mk ("1") ("d") ("t") ("x") ("i") ("c")]
     (TimelineEvent.mk ("1") ("d2") ("t2") ("x2") ("i2") ("c2")) (by decide),
   (upsert_idempotent_on_key (fun _ => 0) 9).2.1 []
     (TimelineEvent.mk ("1") ("d") ("t") ("x") ("i") ("c"))
     (TimelineEvent.mk ("1") ("d2") ("t2") ("x2") ("i2") ("c2")) (by decide) rfl,
   (upsert_idempotent_on_key (fun _ => 0) 9).2.2.1 [WordItem.mk ("Rome") 3]
     ("rome") (some 7) (by decide),
   (upsert_idempotent_on_key (fun _ => 0) 9).2.2.2 [] ("Rome") (some 7) (some 2)
     (by decide) (by decide)⟩

/-! ## C6: feature-asymmetric record coercion -/

theorem coerceEvents_length (jsDate : String → Option String) :
    ∀ (k : Nat) (arr : List Json),
      (coerceEvents jsDate k arr).length = arr.length
  | _, [] => rfl
  | k, raw :: rest => by
    simp [coerceEvents, coerceEvents_length jsDate (k + 1) rest]

theorem coerceEvent_date_sentinel (jsDate : String → Option String)
    (idx : Nat) (raw : Json) (h : rawDateInvalid jsDate raw = true) :
    (coerceEvent jsDate idx raw).date = sentinelIso := by
  have hd0 : (coerceEvent jsDate idx raw).date = toIso jsDate (jget raw "date") := rfl
  rw [hd0]
  unfold rawDateInvalid at h
  unfold toIso
  cases hd : jget raw "date" with
  | none => rfl
  | some v =>
    rw [hd] at h
    cases v <;> first
      | rfl
      | (rename_i s
         simp at h
         show (if jsTrim s = "" then sentinelIso
               else match jsDate s with
                 | some iso => iso
                 | none => sentinelIso) = sentinelIso
         rcases h with h | h
         · rw [if_pos h]
         · by_cases ht : jsTrim s = ""
           · rw [if_pos ht]
           · rw [if_neg ht, h])

theorem coerceEvent_icon_default (jsDate : String → Option String)
    (idx : Nat) (raw : Json) (h : rawFieldNotString raw ("icon") = true) :
    (coerceEvent jsDate idx raw).icon = "📅" := by
  have hd0 : (coerceEvent jsDate idx raw).icon
      = (match jget raw "icon" with
         | some (.str s) => s
         | _ => "📅") := rfl
  rw [hd0]
  unfold rawFieldNotString at h
  cases hd : jget raw "icon" with
  | none => rfl
  | some v =>
    rw [hd] at h
    cases v <;> first
      | rfl
      | simp at h

theorem coerceEvent_color_default (jsDate : String → Option String)
    (idx : Nat) (raw : Json) (h : rawFieldNotString raw ("color") = true) :
    (coerceEvent jsDate idx raw).color = "#3498db" := by
  have hd0 : (coerceEvent jsDate idx raw).color
      = (match jget raw "color" with
         | some (.str s) => s
         | _ => "#3498db") := rfl
  rw [hd0]
  unfold rawFieldNotString at h
  cases hd : jget raw "color" with
  | none => rfl
  | some v =>
    rw [hd] at h
    cases v <;> first
      | rfl
      | simp at h

theorem coerceHop_none_of_cityInvalid (bad : Json)
    (h : cityInvalid bad = true) : coerceHop bad = none := by
  unfold cityInvalid at h
  unfold coerceHop
  cases hd : jget bad "city" with
  | none => rfl
  | some v =>
    rw [hd] at h
    cases v <;> first
      | rfl
      | (rename_i s
         simp at h
         simp [h])

/-- C6: the coercion is feature-asymmetric by design.  Timeline side: every
raw element is kept (the coerced list has the same length), a missing or
unparseable date becomes the 1900-01-01 sentinel, and a missing icon or
color falls back to the explicit defaults.  Life-path side: an element
whose `city` is missing, not a string, or trims to empty is dropped from
the output entirely. -/
theorem record_coercion_asymmetry (jsDate : String → Option String) :
    (∀ (k : Nat) (arr : List Json),
        (coerceEvents jsDate k arr).length = arr.length)
  ∧ (∀ (idx : Nat) (raw : Json), rawDateInvalid jsDate raw = true →
        (coerceEvent jsDate idx raw).date = sentinelIso)
  ∧ (∀ (idx : Nat) (raw : Json), rawFieldNotString raw ("icon") = true →
        (coerceEvent jsDate idx raw).icon = "📅")
  ∧ (∀ (idx : Nat) (raw : Json), rawFieldNotString raw ("color") = true →
        (coerceEvent jsDate idx raw).color = "#3498db")
  ∧ (∀ bad : Json, cityInvalid bad = true → coerceHop bad = none)
  ∧ (∀ (xs ys : List Json) (bad : Json), cityInvalid bad = true →
        coerceLifeHops (xs ++ bad :: ys) = coerceLifeHops (xs ++ ys)) := by
  refine ⟨coerceEvents_length jsDate, coerceEvent_date_sentinel jsDate,
    coerceEvent_icon_default jsDate, coerceEvent_color_default jsDate,
    coerceHop_none_of_cityInvalid, ?_⟩
  intro xs ys bad h
  unfold coerceLifeHops
  rw [List.filterMap_append, List.filterMap_append,
    List.filterMap_cons_none (coerceHop_none_of_cityInvalid bad h)]

/-- Witness for C6 at concrete raw elements: an object with an unparseable
date, elements lacking icon/color/city, and a drop inside a list. -/
theorem record_coercion_asymmetry_witness :
    (coerceEvents (fun _ => none) 0 [Json.null]).length = 1
  ∧ (coerceEvent (fun _ => none) 0
        (Json.obj [("date", Json.str ("not a date"))])).date = sentinelIso
  ∧ (coerceEvent (fun _ => none) 0 Json.null).icon = "📅"
  ∧ (coerceEvent (fun _ => none) 0 Json.null).color = "#3498db"
  ∧ coerceHop (Json.obj [("city", Json.str ("  "))]) = none
  ∧ coerceLifeHops ([Json.obj [("city", Json.str ("Paris"))]] ++ Json.null :: [])
      = coerceLifeHops ([Json.obj [("city", Json.str ("Paris"))]] ++ []) :=
  ⟨(record_coercion_asymmetry (fun _ => none)).1 0 [Json.null],
   (record_coercion_asymmetry (fun _ => none)).2.1 0
     (Json.obj [("date", Json.str ("not a date"))]) (by rfl),
   (record_coercion_asymmetry (fun _ => none)).2.2.1 0 Json.null (by rfl),
   (record_coercion_asymmetry (fun _ => none)).2.2.2.1 0 Json.null (by rfl),
   (record_coercion_asymmetry (fun _ => none)).2.2.2.2.1
     (Json.obj [("city", Json.str ("  "))]) (by rfl),
   (record_coercion_asymmetry (fun _ => none)).2.2.2.2.2
     [Json.obj [("city", Json.str ("Paris"))]] [] Json.null (by rfl)⟩

/-! ## C7: consecutive-duplicate collapsing -/

theorem foldl_dedupStep_eq : ∀ (t acc : List LifeHop) (prev : LifeHop),
    acc.getLast? = some prev →
    t.foldl dedupStep acc = acc ++ collapseSpecGo prev t
  | [], acc, prev, _ => by simp [collapseSpecGo]
  | h :: t, acc, prev, hl => by
    have hstep : dedupStep acc h
        = if hopKey prev = hopKey h then acc else acc ++ [h] := by
      unfold dedupStep
      rw [hl]
    simp only [List.foldl_cons, hstep]
    unfold collapseSpecGo
    by_cases hk : hopKey prev = hopKey h
    · rw [if_pos hk, if_pos hk.symm]
      exact foldl_dedupStep_eq t acc prev hl
    · rw [if_neg hk, if_neg (fun e => hk e.symm)]
      rw [foldl_dedupStep_eq t (acc ++ [h]) h (List.getLast?_concat acc)]
      simp

theorem dedupHops_eq_collapseSpec (hops : List LifeHop) :
    dedupHops hops = collapseSpec hops := by
  cases hops with
  | nil => rfl
  | cons h t =>
    unfold dedupHops collapseSpec
    simp only [List.foldl_cons]
    have h1 : dedupStep [] h = [h] := rfl
    rw [h1, foldl_dedupStep_eq t [h] h rfl]
    simp

theorem chain'_collapseSpecGo : ∀ (t : List LifeHop) (prev : LifeHop),
    List.Chain' (fun a b => hopKey a ≠ hopKey b) (prev :: collapseSpecGo prev t)
  | [], _ => by simp [collapseSpecGo]
  | h :: t, prev => by
    unfold collapseSpecGo
    by_cases hk : hopKey h = hopKey prev
    · rw [if_pos hk]
      exact chain'_collapseSpecGo t prev
    · rw [if_neg hk]
      exact List.chain'_cons.mpr ⟨fun e => hk e.symm, chain'_collapseSpecGo t h⟩

theorem collapseSpecGo_sublist : ∀ (t : List LifeHop) (prev : LifeHop),
    List.Sublist (collapseSpecGo prev t) t
  | [], _ => List.Sublist.refl _
  | h :: t, prev => by
    unfold collapseSpecGo
    by_cases hk : hopKey h = hopKey prev
    · rw [if_pos hk]
      exact (collapseSpecGo_sublist t prev).cons h
    · rw [if_neg hk]
      exact (collapseSpecGo_sublist t h).cons₂ h

/-- C7: the dedup loop of `coerceLifeHops` drops an element exactly when its
key (city, trimmed and lower-cased) equals the previous retained element's
key: it coincides with the spec-modelled `collapseSpec` recursion, retained
neighbours always have distinct keys, nothing is added or reordered, and on
the claim's scenario `[A, A, B, A]` (distinct keys for A and B) the result
is `[A, B, A]` — non-consecutive revisits are kept. -/
theorem consecutive_duplicate_collapsing :
    (∀ hops : List LifeHop, dedupHops hops = collapseSpec hops)
  ∧ (∀ hops : List LifeHop,
      List.Chain' (fun a b => hopKey a ≠ hopKey b) (dedupHops hops))
  ∧ (∀ hops : List LifeHop, List.Sublist (dedupHops hops) hops)
  ∧ (∀ A B : LifeHop, hopKey A ≠ hopKey B →
      dedupHops [A, A, B, A] = [A, B, A]) := by
  refine ⟨dedupHops_eq_collapseSpec, ?_, ?_, ?_⟩
  · intro hops
    rw [dedupHops_eq_collapseSpec]
    cases hops with
    | nil => simp [collapseSpec]
    | cons h t => exact chain'_collapseSpecGo t h
  · intro hops
    rw [dedupHops_eq_collapseSpec]
    cases hops with
    | nil => simp [collapseSpec]
    | cons h t =>
      show List.Sublist (h :: collapseSpecGo h t) (h :: t)
      exact (collapseSpecGo_sublist t h).cons₂ h
  · intro A B hk
    rw [dedupHops_eq_collapseSpec]
    show A :: collapseSpecGo A [A, B, A] = [A, B, A]
    unfold collapseSpecGo
    rw [if_pos rfl]
    unfold collapseSpecGo
    rw [if_neg (fun e => hk e.symm)]
    unfold collapseSpecGo
    rw [if_neg hk]
    rfl

/-- Witness for C7 at the concrete scenario Paris, Paris, London, Paris. -/
theorem consecutive_duplicate_collapsing_witness :
    dedupHops [LifeHop.mk ("Paris") none none none none,
               LifeHop.mk ("Paris") none none none none,
               LifeHop.mk ("London") none none none none,
               LifeHop.mk ("Paris") none none none none]
      = [LifeHop.mk ("Paris") none none none none,
         LifeHop.mk ("London") none none none none,
         LifeHop.mk ("Paris") none none none none] :=
  consecutive_duplicate_collapsing.2.2.2
    (LifeHop.mk ("Paris") none none none none)
    (LifeHop.mk ("London") none none none none) (by decide)

/-! ## C8: abort is silent, other failures are surfaced -/

/-- C8: for a completed external call on a slot, a failure of a superseded
(aborted) call records no user-facing error — the description slot even
leaves its whole state untouched — while any other failure is surfaced as
the feature-scoped error string (the thrown message, with a feature default
when absent).  `applySuccess` abstracts the insight success branch. -/
theorem abort_failures_are_silent
    (applySuccess : String → InsightState → InsightState) :
    (∀ (st : DescState) (msg : Option String),
        descApply true (.err msg) st = st)
  ∧ (∀ (st : DescState) (msg : Option String),
        (descApply false (.err msg) st).descError
          = some (msg.getD ("Failed to fetch description")))
  ∧ (∀ (st : InsightState) (sa : Bool) (msg : Option String),
        (insightApply applySuccess sa (.err (JsError.mk true msg)) st).insightError
          = st.insightError)
  ∧ (∀ (st : InsightState) (sa : Bool) (msg : Option String),
        (insightApply applySuccess sa (.err (JsError.mk false msg)) st).insightError
          = some (msg.getD ("Failed to fetch data."))) := by
  refine ⟨fun st msg => rfl, fun st msg => rfl, ?_, ?_⟩
  · intro st sa msg
    cases sa <;> rfl
  · intro st sa msg
    cases sa <;> rfl

/-! ## C9: keyword store invariants -/

theorem clamp_bounds (v : Rat) : 1 ≤ clamp v 1 100 ∧ clamp v 1 100 ≤ 100 := by
  constructor
  · exact le_max_left _ _
  · apply max_le
    · norm_num
    · exact min_le_left _ _

theorem applyKwOp_length_le (m : Nat) (prev : List WordItem) (op : KwOp)
    (h : prev.length ≤ m) : (applyKwOp m prev op).length ≤ m := by
  cases op with
  | add w wt =>
    show (addKeyword m prev w wt).length ≤ m
    unfold addKeyword
    by_cases hmem : jsLower w ∈ prev.map (fun x => jsLower x.word)
    · rw [if_pos hmem]
      exact h
    · rw [if_neg hmem]
      simp
  | addMany ws =>
    show (addKeywords m prev ws).length ≤ m
    unfold addKeywords
    simp

theorem collectAdditions_weights (m plen : Nat) :
    ∀ (ws : List (String × Option Rat)) (seen : List String)
      (acc : List WordItem),
      (∀ x ∈ acc, 1 ≤ x.weight ∧ x.weight ≤ 100) →
      ∀ x ∈ collectAdditions m plen seen acc ws, 1 ≤ x.weight ∧ x.weight ≤ 100
  | [], _, _, hacc => hacc
  | (w, wt) :: rest, seen, acc, hacc => by
    unfold collectAdditions
    have hacc2 : ∀ x ∈ acc ++ [WordItem.mk w (clamp (wt.getD 1) 1 100)],
        1 ≤ x.weight ∧ x.weight ≤ 100 := by
      intro x hx
      rcases List.mem_append.mp hx with hx | hx
      · exact hacc x hx
      · simp at hx
        subst hx
        exact clamp_bounds _
    split
    · exact collectAdditions_weights m plen rest seen acc hacc
    · split
      · exact hacc2
      · exact collectAdditions_weights m plen rest _ _ hacc2

theorem applyKwOp_weights (m : Nat) (prev : List WordItem) (op : KwOp)
    (h : ∀ x ∈ prev, 1 ≤ x.weight ∧ x.weight ≤ 100) :
    ∀ x ∈ applyKwOp m prev op, 1 ≤ x.weight ∧ x.weight ≤ 100 := by
  cases op with
  | add w wt =>
    show ∀ x ∈ addKeyword m prev w wt, 1 ≤ x.weight ∧ x.weight ≤ 100
    unfold addKeyword
    by_cases hmem : jsLower w ∈ prev.map (fun x => jsLower x.word)
    · rw [if_pos hmem]
      exact h
    · rw [if_neg hmem]
      intro x hx
      have hx2 := List.take_subset m _ hx
      rcases List.mem_append.mp hx2 with hx3 | hx3
      · exact h x hx3
      · simp at hx3
        subst hx3
        exact clamp_bounds _
  | addMany ws =>
    show ∀ x ∈ addKeywords m prev ws, 1 ≤ x.weight ∧ x.weight ≤ 100
    unfold addKeywords
    intro x hx
    have hx2 := List.take_subset m _ hx
    rcases List.mem_append.mp hx2 with hx3 | hx3
    · exact h x hx3
    · exact collectAdditions_weights m prev.length ws _ [] (by simp) x hx3

theorem foldl_kwOps_invariant (m : Nat) :
    ∀ (ops : List KwOp) (init : List WordItem),
      init.length ≤ m → (∀ x ∈ init, 1 ≤ x.weight ∧ x.weight ≤ 100) →
      (ops.foldl (applyKwOp m) init).length ≤ m
        ∧ ∀ x ∈ ops.foldl (applyKwOp m) init, 1 ≤ x.weight ∧ x.weight ≤ 100
  | [], _, h1, h2 => ⟨h1, h2⟩
  | op :: ops, init, h1, h2 =>
    foldl_kwOps_invariant m ops (applyKwOp m init op)
      (applyKwOp_length_le m init op h1) (applyKwOp_weights m init op h2)

theorem prefix_take_append (m : Nat) (prev rest : List WordItem)
    (h : prev.length ≤ m) : prev <+: (prev ++ rest).take m := by
  rw [List.take_append_eq_append_take, List.take_of_length_le h]
  exact ⟨rest.take (m - prev.length), rfl⟩

theorem applyKwOp_prefix (m : Nat) (prev : List WordItem) (op : KwOp)
    (h : prev.length ≤ m) : prev <+: applyKwOp m prev op := by
  cases op with
  | add w wt =>
    show prev <+: addKeyword m prev w wt
    unfold addKeyword
    by_cases hmem : jsLower w ∈ prev.map (fun x => jsLower x.word)
    · rw [if_pos hmem]
    · rw [if_neg hmem]
      exact prefix_take_append m prev _ h
  | addMany ws =>
    show prev <+: addKeywords m prev ws
    unfold addKeywords
    exact prefix_take_append m prev _ h

theorem normalizeKeywordsGo_length (m : Nat) :
    ∀ (items : List Json) (seen : List String) (out : List WordItem),
      out.length < m → (normalizeKeywordsGo m seen out items).length ≤ m
  | [], _, _, hlt => Nat.le_of_lt hlt
  | it :: rest, seen, out, hlt => by
    unfold normalizeKeywordsGo
    split
    · exact normalizeKeywordsGo_length m rest seen out hlt
    · split
      · exact normalizeKeywordsGo_length m rest seen out hlt
      · split
        · simp
          omega
        · rename_i hnotge
          apply normalizeKeywordsGo_length m rest
          simp at hnotge
          simp
          omega

theorem normalizeKeywordsGo_weights (m : Nat) :
    ∀ (items : List Json) (seen : List String) (out : List WordItem),
      (∀ x ∈ out, 1 ≤ x.weight ∧ x.weight ≤ 100) →
      ∀ x ∈ normalizeKeywordsGo m seen out items, 1 ≤ x.weight ∧ x.weight ≤ 100
  | [], _, _, hout => hout
  | it :: rest, seen, out, hout => by
    unfold normalizeKeywordsGo
    have hout2 : ∀ x ∈ out ++ [WordItem.mk (kwWordOf it) (clamp (kwWeightOf it) 1 100)],
        1 ≤ x.weight ∧ x.weight ≤ 100 := by
      intro x hx
      rcases List.mem_append.mp hx with hx | hx
      · exact hout x hx
      · simp at hx
        subst hx
        exact clamp_bounds _
    split
    · exact normalizeKeywordsGo_weights m rest seen out hout
    · split
      · exact normalizeKeywordsGo_weights m rest seen out hout
      · split
        · exact hout2
        · exact normalizeKeywordsGo_weights m rest _ _ hout2

/-- C9: keyword-store invariants.  After any sequence of
`addKeyword`/`addKeywords` operations from the empty store the list holds at
most `maxWords` entries and every stored weight lies in `[1, 100]`; each
operation only ever extends the store at the tail (insertion order is
preserved: the previous contents are a prefix of the new ones); a missing
weight defaults to `1`; and a normalized fetched batch likewise respects the
cap (for a positive cap) and the weight bounds. -/
theorem keyword_store_invariant (m : Nat) :
    (∀ ops : List KwOp, (runKwOps m ops).length ≤ m)
  ∧ (∀ ops : List KwOp, ∀ x ∈ runKwOps m ops, 1 ≤ x.weight ∧ x.weight ≤ 100)
  ∧ (∀ (ops : List KwOp) (op : KwOp),
      runKwOps m ops <+: runKwOps m (ops ++ [op]))
  ∧ (∀ (s : List WordItem) (w : String),
      addKeyword m s w none = addKeyword m s w (some 1))
  ∧ (0 < m → ∀ items : Json, (normalizeKeywords items m).length ≤ m)
  ∧ (∀ items : Json, ∀ x ∈ normalizeKeywords items m,
      1 ≤ x.weight ∧ x.weight ≤ 100) := by
  refine ⟨?_, ?_, ?_, fun s w => rfl, ?_, ?_⟩
  · intro ops
    exact (foldl_kwOps_invariant m ops [] (by simp) (by simp)).1
  · intro ops
    exact (foldl_kwOps_invariant m ops [] (by simp) (by simp)).2
  · intro ops op
    unfold runKwOps
    rw [List.foldl_append]
    exact applyKwOp_prefix m _ op
      (foldl_kwOps_invariant m ops [] (by simp) (by simp)).1
  · intro hm items
    unfold normalizeKeywords
    cases items <;> exact normalizeKeywordsGo_length m _ [] [] (by simpa using hm)
  · intro items
    unfold normalizeKeywords
    cases items <;> exact normalizeKeywordsGo_weights m _ [] [] (by simp)

/-- Witness for C9 at a concrete cap, operation list, and fetched batch. -/
theorem keyword_store_invariant_witness :
    (runKwOps 60 [KwOp.add ("x") (some 5)]).length ≤ 60
  ∧ (1 ≤ (WordItem.mk ("x") 5).weight ∧ (WordItem.mk ("x") 5).weight ≤ 100)
  ∧ runKwOps 60 [KwOp.add ("x") (some 5)]
      <+: runKwOps 60 ([KwOp.add ("x") (some 5)] ++ [KwOp.addMany [(("y"), none)]])
  ∧ addKeyword 60 [] ("y") none = addKeyword 60 [] ("y") (some 1)
  ∧ (normalizeKeywords (Json.arr [Json.null]) 60).length ≤ 60
  ∧ (1 ≤ (WordItem.mk ("w") 7).weight ∧ (WordItem.mk ("w") 7).weight ≤ 100) :=
  ⟨(keyword_store_invariant 60).1 [KwOp.add ("x") (some 5)],
   (keyword_store_invariant 60).2.1 [KwOp.add ("x") (some 5)]
     (WordItem.mk ("x") 5) (by decide),
   (keyword_store_invariant 60).2.2.1 [KwOp.add ("x") (some 5)]
     (KwOp.addMany [(("y"), none)]),
   (keyword_store_invariant 60).2.2.2.1 [] ("y"),
   (keyword_store_invariant 60).2.2.2.2.1 (by decide) (Json.arr [Json.null]),
   (keyword_store_invariant 60).2.2.2.2.2
     (Json.arr [Json.obj [(("word"), Json.str ("w")), (("weight"), Json.num 7)]])
     (WordItem.mk ("w") 7) (by decide)⟩

/-! ## C10: blank person name short-circuits -/

/-- C10: for every person name that is null (modelled as `none`), empty, or
whitespace-only, `fetchPersonLifePath` returns the empty list immediately
and issues no search query (the boolean component of the model records
whether the search oracle was consulted). -/
theorem lifepath_blank_name (search : String → String)
    (personName : Option String)
    (h : personName = none ∨ ∃ s, personName = some s ∧ jsTrim s = "") :
    fetchPersonLifePath search personName = ([], false) := by
  unfold fetchPersonLifePath
  rcases h with h | ⟨s, hs, ht⟩
  · subst h
    rfl
  · subst hs
    simp [ht]

/-- Witness for C10 at a whitespace-only person name. -/
theorem lifepath_blank_name_witness :
    fetchPersonLifePath (fun _ => "") (some ("   ")) = ([], false) :=
  lifepath_blank_name (fun _ => "") (some ("   "))
    (Or.inr ⟨("   "), rfl, rfl⟩)

/-! ## C1: stale timeline resolutions are applied -/

/-- C1 (code bug): trigger T1, then trigger T2 before T1's call resolves;
T2's response arrives and populates the store; then T1's stale response
resolves.  The Map.tsx timeline effect applies parsed results with no
staleness check of any kind, so T1's eventual resolution mutates the slot's
store: the final store contains T1's record (id "1") alongside T2's,
instead of reflecting only T2's records as the claim requires.  (The
description slot in Desc.tsx does check `ctrl.signal.aborted` at apply
time; the timeline slot checks nothing.) -/
theorem stale_timeline_resolution_mutates_store :
    (runTimelineSlot jsDateC1 timeOfC1
        [SlotAct.trigger, SlotAct.trigger,
         SlotAct.resolve t2TextC1, SlotAct.resolve t1TextC1]).events.map
      TimelineEvent.id = ["1", "2"] := by
  rfl
